import Mathlib

/-!
Verification of the neighbors component of the scanpy repository
(`src/scanpy/neighbors/__init__.py`), over a shallow embedding in Lean.

Numeric values are modelled by exact rationals.  The transcendental
functions `np.sqrt` and `np.exp`, which the kernel construction applies
pointwise, are modelled by arbitrary function parameters `sq ex : ℚ → ℚ`:
every statement proved here holds for any such functions, hence in
particular for the real square root and exponential.
-/

namespace Scanpy

/-!
Nearest-neighbor selection, from
`get_indices_distances_of_k_nearest_from_dense_matrix` (and `get_neighbors`,
which runs the identical selection on a chunk of rows):
`np.argpartition(Dsq, k-1, axis=1)[:, :k]` followed by `np.argsort` of the
selected entries yields, for each row, the `k` indices of smallest distance
sorted ascending, ties resolved by index order; `[:, 1:]` then drops the
first (assumed to be the point itself).  The partition-then-sort combination
is modelled as a full sort of all indices by `(value, index)` followed by
`take k`, which has exactly the selected-`k`-sorted semantics.
-/

/-- Comparison used to order a row of distances: strictly smaller value
first, ties broken by index order. -/
def rowOrder {n : ℕ} (row : Fin n → ℚ) (a b : Fin n) : Prop :=
  row a < row b ∨ (row a = row b ∧ a.val ≤ b.val)

instance {n : ℕ} (row : Fin n → ℚ) : DecidableRel (rowOrder row) := fun a b => by
  unfold rowOrder
  exact inferInstance

instance {n : ℕ} (row : Fin n → ℚ) : IsTotal (Fin n) (rowOrder row) := by
  constructor
  intro a b
  rcases lt_trichotomy (row a) (row b) with h | h | h
  · exact Or.inl (Or.inl h)
  · rcases Nat.le_total a.val b.val with hab | hab
    · exact Or.inl (Or.inr ⟨h, hab⟩)
    · exact Or.inr (Or.inr ⟨h.symm, hab⟩)
  · exact Or.inr (Or.inl h)

instance {n : ℕ} (row : Fin n → ℚ) : IsTrans (Fin n) (rowOrder row) := by
  constructor
  intro a b c hab hbc
  rcases hab with hab | ⟨hab, hab2⟩ <;> rcases hbc with hbc | ⟨hbc, hbc2⟩
  · exact Or.inl (hab.trans hbc)
  · exact Or.inl (hbc ▸ hab)
  · exact Or.inl (hab ▸ hbc)
  · exact Or.inr ⟨hab.trans hbc, hab2.trans hbc2⟩

/-- All indices of a row, sorted by ascending distance (ties by index):
models `np.argpartition` followed by `np.argsort` on the selected block. -/
def argsortRow {n : ℕ} (row : Fin n → ℚ) : List (Fin n) :=
  List.insertionSort (rowOrder row) (List.finRange n)

/-- `get_indices_distances_of_k_nearest_from_dense_matrix`, index part:
select the `k` smallest entries of row `i` of `Dsq` (sorted ascending,
ties by index) and drop the first, assumed to be the point itself. -/
def get_indices_of_k_nearest {n : ℕ} (Dsq : Fin n → Fin n → ℚ) (k : ℕ) (i : Fin n) :
    List (Fin n) :=
  ((argsortRow (Dsq i)).take k).drop 1

/-- `get_indices_distances_of_k_nearest_from_dense_matrix`, distance part:
`distances = Dsq[sample_range, indices]`. -/
def get_distances_of_k_nearest {n : ℕ} (Dsq : Fin n → Fin n → ℚ) (k : ℕ) (i : Fin n) :
    List ℚ :=
  (get_indices_of_k_nearest Dsq k i).map (Dsq i)

/-- An executable finite sum over `Fin n`, used so that concrete instances
reduce inside `decide`. -/
def finSum (n : ℕ) (f : Fin n → ℚ) : ℚ :=
  ((List.finRange n).map f).sum

theorem finSum_eq {n : ℕ} (f : Fin n → ℚ) : finSum n f = ∑ i, f i :=
  (Fin.sum_univ_def f).symm

/-- Modelled from the spec: `utils.comp_sqeuclidean_distance_using_matrix_mult`
lives outside the provided sources; the spec describes it as the squared
Euclidean distance computed via the matrix-multiplication identity
`‖a−b‖² = ‖a‖² + ‖b‖² − 2a·b`. -/
def comp_sqeuclidean_distance_using_matrix_mult {n dd : ℕ}
    (X : Fin n → Fin dd → ℚ) (i j : Fin n) : ℚ :=
  finSum dd (fun l => X i l ^ 2) + finSum dd (fun l => X j l ^ 2)
    - 2 * finSum dd (fun l => X i l * X j l)

/-- The dense all-pairs squared-distance matrix of a point set. -/
def sqdistM {n dd : ℕ} (X : Fin n → Fin dd → ℚ) : Fin n → Fin n → ℚ :=
  fun i j => comp_sqeuclidean_distance_using_matrix_mult X i j

/-- The clamp at the top of `Neighbors.compute_distances`: for very small
datasets a requested neighbor count larger than the dataset size is
silently reduced to `1 + int(0.5 * n_obs)`, that is `1 + ⌊n_obs / 2⌋`. -/
def compute_distances_effective_k (n_neighbors n_obs : ℕ) : ℕ :=
  if n_neighbors > n_obs then 1 + n_obs / 2 else n_neighbors

/-- `np.median` of a list: sort ascending, then average the two middle
elements (for odd length both coincide). -/
def medianQ (l : List ℚ) : ℚ :=
  let s := List.insertionSort (· ≤ ·) l
  (s.getD ((l.length - 1) / 2) 0 + s.getD (l.length / 2) 0) / 2

/-!
Kernel construction (`Neighbors.compute_similarities`).  The per-edge
weight is `sqrt(2·σᵢ·σⱼ/(σᵢ²+σⱼ²)) · exp(-d²ᵢⱼ/(σᵢ²+σⱼ²))`; `np.sqrt` and
`np.exp` appear as the function parameters `sq` and `ex`.
-/

/-- One entry of the weight matrix `W = np.sqrt(Num/Den) * np.exp(-Dsq/Den)`
with `Num = 2·outer(sigmas, sigmas)` and `Den = add.outer(sigmas_sq,
sigmas_sq)`, where `sigmas = sq(sigmas_sq)`. -/
def gaussW {n : ℕ} (sq ex : ℚ → ℚ) (sigsq : Fin n → ℚ) (D : Fin n → Fin n → ℚ)
    (a b : Fin n) : ℚ :=
  sq (2 * sq (sigsq a) * sq (sigsq b) / (sigsq a + sigsq b))
    * ex (-D a b / (sigsq a + sigsq b))

/-- Non-knn bandwidth: `sigmas_sq = distances_sq[:, -1] / 4` (the last
selected distance is already in sorted position after `argpartition`). -/
def denseSigmaSq {n : ℕ} (Dsq : Fin n → Fin n → ℚ) (k : ℕ) (i : Fin n) : ℚ :=
  (get_distances_of_k_nearest Dsq k i).getLastD 0 / 4

/-- The columns of row `i` that survive `Dsq[i].nonzero()` in
`get_indices_distances_from_sparse_matrix`: explicitly stored zero
distances (duplicate points) are dropped. -/
def rowNonzero {n : ℕ} (idx : Fin n → List (Fin n)) (val : Fin n → Fin n → ℚ)
    (i : Fin n) : List (Fin n) :=
  (idx i).filter (fun j => decide (val i j ≠ 0))

/-- numpy broadcast on assignment into a width-`k1` row slot
(`indices[i] = neighbors[1]`): a length-`k1` array is taken as is, a
length-1 array is replicated across the slot; any other length raises
`ValueError` in numpy and is returned unchanged here (no statement below
exercises that combination). -/
def npBroadcast {α : Type} (k1 : ℕ) (l : List α) : List α :=
  match l with
  | [x] => List.replicate k1 x
  | _ => l

/-- `get_indices_distances_from_sparse_matrix`, index part: the
nonzero()-filtered columns of row `i`, broadcast into the `k-1`-wide
array. -/
def get_indices_from_sparse {n : ℕ} (k : ℕ) (idx : Fin n → List (Fin n))
    (val : Fin n → Fin n → ℚ) (i : Fin n) : List (Fin n) :=
  npBroadcast (k - 1) (rowNonzero idx val i)

/-- `get_indices_distances_from_sparse_matrix`, distance part: the values
at the nonzero()-filtered columns, broadcast into the `k-1`-wide array. -/
def get_distances_from_sparse {n : ℕ} (k : ℕ) (idx : Fin n → List (Fin n))
    (val : Fin n → Fin n → ℚ) (i : Fin n) : List ℚ :=
  npBroadcast (k - 1) ((rowNonzero idx val i).map (val i))

/-- knn bandwidth: `sigmas_sq = np.median(distances_sq, axis=1)` over the
nonzero()-extracted, broadcast-padded neighbor distances of each row. -/
def sparseSigmaSq {n : ℕ} (k : ℕ) (idx : Fin n → List (Fin n))
    (val : Fin n → Fin n → ℚ) (i : Fin n) : ℚ :=
  medianQ (get_distances_from_sparse k idx val i)

/-- Dense non-knn weight matrix: the Gaussian weights with entries at most
`1e-14` zeroed out (`self.Mask = W > 1e-14; W[Mask == False] = 0`). -/
def denseWMasked {n : ℕ} (sq ex : ℚ → ℚ) (Dsq : Fin n → Fin n → ℚ) (k : ℕ)
    (a b : Fin n) : ℚ :=
  let w := gaussW sq ex (denseSigmaSq Dsq k) Dsq a b
  if w > 1 / 100000000000000 then w else 0

/-- Sparse knn weight matrix after the in-place kernel evaluation on the
copied CSR data and the mirror loop `if i not in set(indices[j]): W[j, i] =
W[i, j]`.  The kernel values are computed for every stored CSR entry
(`Dsq.indices`), but the mirror loop enumerates and tests membership
against the nonzero()-filtered, broadcast `indices` lists of
`get_indices_distances_from_sparse_matrix`.  A cell `(a,b)` is overwritten
by a mirror write iff `a` is in the filtered list of `b` and `b` not in the
filtered list of `a`; the read cell `(b,a)` is then a stored entry (the
filtered lists are sub-lists of the stored pattern), so the written value
is its kernel value.  An un-overwritten stored cell keeps its kernel
value; everything else is 0. -/
def sparseW {n : ℕ} (sq ex : ℚ → ℚ) (k : ℕ) (idx : Fin n → List (Fin n))
    (val : Fin n → Fin n → ℚ) (a b : Fin n) : ℚ :=
  if a ∈ get_indices_from_sparse k idx val b ∧ b ∉ get_indices_from_sparse k idx val a then
    gaussW sq ex (sparseSigmaSq k idx val) val b a
  else if b ∈ idx a then gaussW sq ex (sparseSigmaSq k idx val) val a b
  else 0

/-- Column sum `q[b] = Σₐ W[a, b]` (`W.sum(axis=0)`), the degree estimate. -/
def colSum {n : ℕ} (W : Fin n → Fin n → ℚ) (b : Fin n) : ℚ :=
  finSum n (fun a => W a b)

/-- Density normalization with `alpha = 1` (the default):
`K = W / np.outer(q, q)`. -/
def densityNormalize {n : ℕ} (W : Fin n → Fin n → ℚ) (a b : Fin n) : ℚ :=
  W a b / (colSum W a * colSum W b)

/-- Final normalization `Ktilde = K / np.outer(sqrtz, sqrtz)` with
`z = K.sum(axis=0)` and `sqrtz = np.sqrt(z)`. -/
def simNormalize {n : ℕ} (sq : ℚ → ℚ) (K : Fin n → Fin n → ℚ) (a b : Fin n) : ℚ :=
  K a b / (sq (colSum K a) * sq (colSum K b))

/-- `compute_similarities`, dense non-knn path (`issparse = False`,
`knn = False`), from the distance matrix to `self._similarities`. -/
def compute_similarities_dense {n : ℕ} (sq ex : ℚ → ℚ) (k : ℕ)
    (Dsq : Fin n → Fin n → ℚ) : Fin n → Fin n → ℚ :=
  simNormalize sq (densityNormalize (denseWMasked sq ex Dsq k))

/-- `compute_similarities`, sparse knn path (`issparse = True`,
`knn = True`), from the CSR distance graph to `self._similarities`;
`k = self.n_neighbors` drives the row extraction. -/
def compute_similarities_sparse {n : ℕ} (sq ex : ℚ → ℚ) (k : ℕ)
    (idx : Fin n → List (Fin n)) (val : Fin n → Fin n → ℚ) : Fin n → Fin n → ℚ :=
  simNormalize sq (densityNormalize (sparseW sq ex k idx val))

/-- A stored distance/similarity matrix: either a dense `np.ndarray` or a
CSR sparse matrix, the latter given by the per-row stored column lists and
an entry-value function. -/
inductive StoredMat (n : ℕ) where
  | dense (D : Fin n → Fin n → ℚ)
  | sparse (idx : Fin n → List (Fin n)) (val : Fin n → Fin n → ℚ)

/-- `scipy.sparse.issparse`. -/
def StoredMat.isSparse {n : ℕ} : StoredMat n → Bool
  | .dense _ => false
  | .sparse _ _ => true

/-- Elementwise `np.sign` on rationals. -/
def signQ (x : ℚ) : ℚ :=
  if 0 < x then 1 else if x < 0 then -1 else 0

/-- `.sign()` of a stored matrix, used by `flavor='unweighted'`. -/
def StoredMat.sign {n : ℕ} : StoredMat n → StoredMat n
  | .dense D => .dense (fun a b => signQ (D a b))
  | .sparse idx val => .sparse idx (fun a b => signQ (val a b))

/-- The sparsity pattern produced by the mirror loop followed by
`tolil`/`tocsr` (rows end up in column order): column `b` is stored in row
`a` iff the edge is stored, or the mirror loop — which enumerates the
nonzero()-filtered lists — wrote the cell. -/
def symPattern {n : ℕ} (k : ℕ) (idx : Fin n → List (Fin n))
    (val : Fin n → Fin n → ℚ) (a : Fin n) : List (Fin n) :=
  (List.finRange n).filter (fun b => decide (b ∈ idx a
    ∨ (a ∈ get_indices_from_sparse k idx val b ∧ b ∉ get_indices_from_sparse k idx val a)))

inductive Flavor where
  | haghverdi16
  | unweighted
deriving DecidableEq

/-- The mutable attributes of a `Neighbors` object that the claims refer to
(`_distances`, `_similarities`, `evals`, `knn`, `flavor`, `rbasisBool`). -/
structure NeighborsState (n : ℕ) where
  distances : Option (StoredMat n)
  similarities : Option (StoredMat n)
  evals : Option (List ℚ)
  knn : Bool
  flavor : Flavor
  rbasisBool : Bool

/-- `Neighbors.compute_similarities` as a state transformer.  A `some msg`
in the first component models a raised exception; the second component is
the object state when the call returns or raises.  The method raises before
writing any attribute when no distance graph exists; the neighbor
extraction (`get_indices_distances_from_sparse_matrix` on a dense array, or
the dense selection on a sparse matrix) raises for the mismatched
representation/knn combinations; `flavor='unweighted'` raises when knn mode
is off.  On success only `_similarities` is (re)assigned — the sparse path
works on `W = Dsq.copy()`, the dense path builds fresh arrays, so
`_distances` is never touched. -/
def compute_similarities_state {n : ℕ} (sq ex : ℚ → ℚ) (k : ℕ)
    (s : NeighborsState n) : Option String × NeighborsState n :=
  match s.distances with
  | none => (some "You need to run `.compute_distances` first.", s)
  | some dmat =>
    match dmat, s.knn with
    | .sparse idx val, true =>
      if s.flavor = Flavor.unweighted then
        (none, { s with similarities := some ((StoredMat.sparse idx val).sign) })
      else
        let sims := StoredMat.sparse (symPattern k idx val)
          (compute_similarities_sparse sq ex k idx val)
        (none, { s with similarities := some sims })
    | .dense D, false =>
      if s.flavor = Flavor.unweighted then
        (some "flavor=unweighted only with knn=True.", s)
      else
        let sims := StoredMat.dense (compute_similarities_dense sq ex k D)
        (none, { s with similarities := some sims })
    | .sparse _ _, false => (some "TypeError: argpartition on a sparse matrix.", s)
    | .dense _, true => (some "IndexError: sparse row extraction on a dense array.", s)

/-- The eigenvalue part of `Neighbors.compute_eigen`.  `full` models
`scipy.linalg.eigh` (full dense decomposition, taken when `n_comps = 0`);
`es` models `scipy.sparse.linalg.eigsh` called with `which = 'LM'` when
`decrease` and `'SM'` otherwise, on `min(N-1, n_comps)` components; for
`sort='decrease'` the result is reversed. -/
def compute_eigen_evals (full : List ℚ) (es : Bool → ℕ → List ℚ)
    (n_comps nobs : ℕ) (decrease : Bool) : List ℚ :=
  if n_comps = 0 then full
  else
    let ncomp := min (nobs - 1) n_comps
    let evals := es decrease ncomp
    if decrease then evals.reverse else evals

/-- `Neighbors.compute_eigen` as a state transformer.  `self.rbasisBool =
True` is executed before the missing-matrix check, so that flag is mutated
even on the raising path; `_distances`, `_similarities` and the spectrum
are only touched on success. -/
def compute_eigen_state {n : ℕ} (full : StoredMat n → List ℚ)
    (es : StoredMat n → Bool → ℕ → List ℚ) (n_comps : ℕ) (decrease : Bool)
    (matrix : Option (StoredMat n)) (s : NeighborsState n) :
    Option String × NeighborsState n :=
  let s1 := { s with rbasisBool := true }
  match (match matrix with | some m => some m | none => s.similarities) with
  | none => (some "Run `.compute_similarities` first.", s1)
  | some M =>
    (none, { s1 with evals := some (compute_eigen_evals (full M) (es M) n_comps n decrease) })

/-- The two recognized persisted slots in `adata.uns`. -/
structure UnsSlots (n : ℕ) where
  neighbors_distances : Option (StoredMat n)
  neighbors_similarities : Option (StoredMat n)

/-- The reconstructed graph metadata. -/
structure InitGraphInfo where
  knn : Option Bool
  n_neighbors : Option ℕ
deriving DecidableEq

/-- `adata.uns['...'][0].nonzero()[0].size`: the number of stored nonzero
entries in the first row of a sparse matrix. -/
def firstRowNonzeroCount {n : ℕ} (M : StoredMat n) : ℕ :=
  if h : 0 < n then
    match M with
    | .dense _ => 0
    | .sparse idx val => ((idx ⟨0, h⟩).countP (fun j => decide (val ⟨0, h⟩ j ≠ 0)))
  else 0

/-- The load-time reconstruction in `Neighbors.__init__`: each recognized
slot, if present, sets `knn = issparse(stored)` and (when sparse)
`n_neighbors = stored[0].nonzero()[0].size + 1`; the similarities slot runs
second and overrides. -/
def neighbors_init_info {n : ℕ} (uns : UnsSlots n) : InitGraphInfo :=
  let r0 : InitGraphInfo :=
    match uns.neighbors_distances with
    | some M =>
      { knn := some M.isSparse
        n_neighbors := if M.isSparse then some (firstRowNonzeroCount M + 1) else none }
    | none => { knn := none, n_neighbors := none }
  match uns.neighbors_similarities with
  | some M =>
    { knn := some M.isSparse
      n_neighbors := if M.isSparse then some (firstRowNonzeroCount M + 1) else none }
  | none => r0

/-- `OnFlySymMatrix`: a lazily computed symmetric matrix, backed by a row
generator `get_row`, a mutable row cache `rows` (assoc list modelling the
Python dict) and an optional index-restriction array. -/
structure OnFlySymMatrix where
  get_row : ℕ → List ℚ
  shape : ℕ × ℕ
  DC_start : ℤ
  DC_end : ℤ
  rows : List (ℕ × List ℚ)
  restrict_array : Option (List ℕ)

/-- Dictionary lookup in the row cache. -/
def findRow (g : ℕ) : List (ℕ × List ℚ) → Option (List ℚ)
  | [] => none
  | p :: ps => if p.1 = g then some p.2 else findRow g ps

/-- Translate a view-local index to a global one
(`glob_index = self.restrict_array[index]` when restricted). -/
def traIdx (ra : Option (List ℕ)) (index : ℕ) : ℕ :=
  match ra with
  | none => index
  | some l => l.getD index 0

/-- `if glob_index not in self.rows: self.rows[glob_index] =
self.get_row(glob_index)` followed by the read; the third component logs
the row-generator invocations this step performed. -/
def OnFlySymMatrix.fetchRow (M : OnFlySymMatrix) (g : ℕ) :
    List ℚ × OnFlySymMatrix × List ℕ :=
  match findRow g M.rows with
  | some r => (r, M, [])
  | none => (M.get_row g, { M with rows := (g, M.get_row g) :: M.rows }, [g])

/-- `__getitem__` with a single (integer) index. -/
def OnFlySymMatrix.getItemSingle (M : OnFlySymMatrix) (index : ℕ) :
    List ℚ × OnFlySymMatrix × List ℕ :=
  let g := traIdx M.restrict_array index
  let res := M.fetchRow g
  match M.restrict_array with
  | none => res
  | some ra => (ra.map (fun gg => res.1.getD gg 0), res.2.1, res.2.2)

/-- `__getitem__` with a pair of indices: the cached (always global) row of
the first index is read at the translated second index. -/
def OnFlySymMatrix.getItemPair (M : OnFlySymMatrix) (i j : ℕ) :
    ℚ × OnFlySymMatrix × List ℕ :=
  let g0 := traIdx M.restrict_array i
  let g1 := traIdx M.restrict_array j
  let res := M.fetchRow g0
  (res.1.getD g1 0, res.2.1, res.2.2)

/-- `OnFlySymMatrix.restrict`: a new view with the same row generator and
the same (shared) row cache, only the index translation changes. -/
def OnFlySymMatrix.restrict (M : OnFlySymMatrix) (index_array : List ℕ) :
    OnFlySymMatrix :=
  { get_row := M.get_row, shape := (index_array.length, index_array.length),
    DC_start := M.DC_start, DC_end := M.DC_end,
    rows := M.rows, restrict_array := some index_array }

inductive MatRequest where
  | single (i : ℕ)
  | pair (i j : ℕ)
deriving DecidableEq

inductive MatResponse where
  | row (r : List ℚ)
  | val (q : ℚ)
deriving DecidableEq

/-- Dispatch one lookup. -/
def handleRequest (M : OnFlySymMatrix) : MatRequest → MatResponse × OnFlySymMatrix × List ℕ
  | .single i =>
    let res := M.getItemSingle i
    (.row res.1, res.2.1, res.2.2)
  | .pair i j =>
    let res := M.getItemPair i j
    (.val res.1, res.2.1, res.2.2)

/-- Run a sequence of lookups against the view, threading the cache and
concatenating the row-generator invocation log. -/
def processRequests (M : OnFlySymMatrix) : List MatRequest →
    List MatResponse × OnFlySymMatrix × List ℕ
  | [] => ([], M, [])
  | r :: rs =>
    let h := handleRequest M r
    let t := processRequests h.2.1 rs
    (h.1 :: t.1, t.2.1, h.2.2 ++ t.2.2)

/-- The pure specification of a lookup answer for a fixed generator and
restriction: what any lookup must return, cached or not. -/
def expectedResponse (gen : ℕ → List ℚ) (ra : Option (List ℕ)) :
    MatRequest → MatResponse
  | .single i =>
    match ra with
    | none => .row (gen i)
    | some l => .row (l.map (fun gg => (gen (l.getD i 0)).getD gg 0))
  | .pair i j => .val ((gen (traIdx ra i)).getD (traIdx ra j) 0)

/-- The cache invariant: every cached row equals the generator's output. -/
def cacheGood (M : OnFlySymMatrix) : Prop :=
  ∀ g r, findRow g M.rows = some r → r = M.get_row g

/-- Whether global row `g` is cached. -/
def isCached (M : OnFlySymMatrix) (g : ℕ) : Bool :=
  (findRow g M.rows).isSome

/-- `1 - 1e-6`, the float32-precision cutoff in `_get_Ddiff_row`. -/
def evalCutoff : ℚ := 999999 / 1000000

/-- `Neighbors._get_Ddiff_row` (for `self.sym = True`): the diffusion
distance row, a sum over eigenvalue indices split at the cutoff, with
`np.sqrt` as the parameter `sq`. -/
def get_Ddiff_row {n : ℕ} (sq : ℚ → ℚ) (evals : List ℚ)
    (rbasis lbasis : Fin n → ℕ → ℚ) (i j : Fin n) : ℚ :=
  sq ((((List.range evals.length).filter
          (fun l => decide (evals.getD l 0 < evalCutoff))).map
        (fun l => (evals.getD l 0 / (1 - evals.getD l 0) * (rbasis i l - lbasis j l)) ^ 2)).sum
    + (((List.range evals.length).filter
          (fun l => decide (¬ evals.getD l 0 < evalCutoff))).map
        (fun l => (rbasis i l - lbasis j l) ^ 2)).sum)

/-- A small symmetric matrix with nonzero entries, used to instantiate
theorems on concrete inputs. -/
def exampleD2 : Fin 2 → Fin 2 → ℚ :=
  fun i j => ((i.val + j.val + 1 : ℕ) : ℚ)

/-- A small neighbor-list pattern used to instantiate theorems on concrete
inputs. -/
def exampleIdx2 : Fin 2 → List (Fin 2) :=
  fun _ => [0]

/-- Two identical points (a duplicate pair), used to exhibit the
tie-breaking and zero-distance edge cases. -/
def exampleXdup : Fin 2 → Fin 1 → ℚ :=
  fun _ _ => 0

/-- Two distinct points on a line. -/
def exampleXdistinct : Fin 2 → Fin 1 → ℚ :=
  fun i _ => (i.val : ℚ)

/-- Three distinct points at positions `0`, `-1`, `9/10`: point 1 has point
0 as nearest neighbor, but not conversely, producing an asymmetric knn
edge into point 0. -/
def exampleX3 : Fin 3 → Fin 1 → ℚ :=
  fun i _ => if i.val = 0 then 0 else if i.val = 1 then -1 else 9 / 10

/-- Four points at positions `0, 0, 1, 2`: one duplicate pair.  With
`k = 3` the stored knn graph holds the zero-distance edge `(0,1)` (and a
zero self-loop in row 1), which `nonzero()` drops from the extracted
neighbor lists. -/
def exampleX4dup : Fin 4 → Fin 1 → ℚ :=
  fun i _ => if i.val ≤ 1 then 0 else if i.val = 2 then 1 else 2

/-- A small eigenbasis used to instantiate the pseudotime theorem. -/
def exampleRb : Fin 2 → ℕ → ℚ :=
  fun i _ => if i.val = 0 then 0 else 1

/-- `np.max` over a (nonempty) row. -/
def rowMaxQ {n : ℕ} (f : Fin n → ℚ) (i0 : Fin n) : ℚ :=
  Finset.univ.sup' ⟨i0, Finset.mem_univ i0⟩ f

/-- `Neighbors._set_pseudotime`: the `Dchosen` row at the root index,
divided by its own maximum. -/
def pseudotimeOf {n : ℕ} (sq : ℚ → ℚ) (evals : List ℚ)
    (rbasis lbasis : Fin n → ℕ → ℚ) (iroot : Fin n) : Fin n → ℚ :=
  fun j => get_Ddiff_row sq evals rbasis lbasis iroot j
    / rowMaxQ (get_Ddiff_row sq evals rbasis lbasis iroot) iroot

theorem sqdist_eq_sum_sq {n dd : ℕ} (X : Fin n → Fin dd → ℚ) (i j : Fin n) :
    sqdistM X i j = ∑ l, (X i l - X j l) ^ 2 := by
  unfold sqdistM comp_sqeuclidean_distance_using_matrix_mult
  rw [finSum_eq, finSum_eq, finSum_eq,
    Finset.sum_congr rfl (fun l _ => sub_sq (X i l) (X j l)),
    Finset.sum_add_distrib, Finset.sum_sub_distrib, Finset.mul_sum,
    Finset.sum_congr rfl (fun l _ => (mul_assoc 2 (X i l) (X j l)).symm)]
  ring

theorem sqdist_nonneg {n dd : ℕ} (X : Fin n → Fin dd → ℚ) (i j : Fin n) :
    0 ≤ sqdistM X i j := by
  rw [sqdist_eq_sum_sq]
  exact Finset.sum_nonneg fun l _ => sq_nonneg _

theorem sqdist_symm {n dd : ℕ} (X : Fin n → Fin dd → ℚ) (i j : Fin n) :
    sqdistM X i j = sqdistM X j i := by
  unfold sqdistM comp_sqeuclidean_distance_using_matrix_mult
  simp only [finSum_eq]
  rw [Finset.sum_congr rfl (fun l _ => mul_comm (X i l) (X j l))]
  ring

theorem sqdist_self {n dd : ℕ} (X : Fin n → Fin dd → ℚ) (i : Fin n) :
    sqdistM X i i = 0 := by
  rw [sqdist_eq_sum_sq]
  simp

theorem length_argsortRow {n : ℕ} (row : Fin n → ℚ) : (argsortRow row).length = n := by
  unfold argsortRow
  rw [List.length_insertionSort, List.length_finRange]

theorem mem_argsortRow {n : ℕ} (row : Fin n → ℚ) (a : Fin n) : a ∈ argsortRow row := by
  unfold argsortRow
  rw [List.mem_insertionSort]
  exact List.mem_finRange a

theorem nodup_argsortRow {n : ℕ} (row : Fin n → ℚ) : (argsortRow row).Nodup :=
  ((List.perm_insertionSort (rowOrder row) (List.finRange n)).nodup_iff).mpr
    (List.nodup_finRange n)

theorem sorted_argsortRow {n : ℕ} (row : Fin n → ℚ) :
    List.Sorted (rowOrder row) (argsortRow row) :=
  List.sorted_insertionSort (rowOrder row) (List.finRange n)

/-- If `i` is the unique minimizer of its row, the sorted index list starts
with `i` (the self-match occupies position 0, as the source assumes). -/
theorem argsortRow_head_of_strict_min {n : ℕ} (row : Fin n → ℚ) (i : Fin n)
    (hmin : ∀ j, j ≠ i → row i < row j) :
    ∃ t, argsortRow row = i :: t := by
  have hmem := mem_argsortRow row i
  cases h : argsortRow row with
  | nil => rw [h] at hmem; exact absurd hmem (List.not_mem_nil i)
  | cons x t =>
    rw [h] at hmem
    have hsorted := sorted_argsortRow row
    rw [h] at hsorted
    refine ⟨t, ?_⟩
    by_cases hx : x = i
    · rw [hx]
    · exfalso
      have hit : i ∈ t := by
        rcases List.mem_cons.mp hmem with h1 | h1
        · exact absurd h1.symm hx
        · exact h1
      have hxi : rowOrder row x i := (List.sorted_cons.mp hsorted).1 i hit
      have hlt : row i < row x := hmin x hx
      rcases hxi with h2 | ⟨h2, _⟩
      · exact absurd (h2.trans hlt) (lt_irrefl _)
      · rw [h2] at hlt; exact absurd hlt (lt_irrefl _)

theorem rowOrder_imp_le {n : ℕ} (row : Fin n → ℚ) {a b : Fin n}
    (h : rowOrder row a b) : row a ≤ row b := by
  rcases h with h | ⟨h, _⟩
  · exact le_of_lt h
  · exact le_of_eq h

/-- Amended claim C2 workhorse: for pairwise-distinct points and `k ≤ n`,
the selection returns `min (k-1) (n-1)` neighbor indices, none of them the
point itself, with non-negative distances sorted ascending. -/
theorem neighbor_search_spec {n dd : ℕ} (X : Fin n → Fin dd → ℚ) (k : ℕ) (i : Fin n)
    (hk : k ≤ n)
    (hdistinct : ∀ a b : Fin n, a ≠ b → sqdistM X a b ≠ 0) :
    (get_indices_of_k_nearest (sqdistM X) k i).length = min (k - 1) (n - 1)
    ∧ i ∉ get_indices_of_k_nearest (sqdistM X) k i
    ∧ (∀ q ∈ get_distances_of_k_nearest (sqdistM X) k i, 0 ≤ q)
    ∧ List.Sorted (· ≤ ·) (get_distances_of_k_nearest (sqdistM X) k i) := by
  refine ⟨?_, ?_, ?_, ?_⟩
  · unfold get_indices_of_k_nearest
    rw [List.length_drop, List.length_take, length_argsortRow]
    omega
  · match k with
    | 0 =>
      unfold get_indices_of_k_nearest
      simp
    | Nat.succ m =>
      have hmin : ∀ j, j ≠ i → sqdistM X i i < sqdistM X i j := by
        intro j hj
        rw [sqdist_self]
        exact lt_of_le_of_ne (sqdist_nonneg X i j) (Ne.symm (hdistinct i j (Ne.symm hj)))
      have hmin2 : ∀ j, j ≠ i → sqdistM X i i < sqdistM X i j := hmin
      obtain ⟨t, ht⟩ := argsortRow_head_of_strict_min (sqdistM X i) i
        (fun j hj => by simpa [sqdist_self] using hmin j hj)
      have hnd : (argsortRow (sqdistM X i)).Nodup := nodup_argsortRow _
      rw [ht] at hnd
      unfold get_indices_of_k_nearest
      rw [ht, List.take_succ_cons, List.drop_one, List.tail_cons]
      intro hmem
      exact (List.nodup_cons.mp hnd).1 (List.take_subset m t hmem)
  · intro q hq
    unfold get_distances_of_k_nearest at hq
    rcases List.mem_map.mp hq with ⟨j, _, rfl⟩
    exact sqdist_nonneg X i j
  · have hsub : List.Sublist (get_indices_of_k_nearest (sqdistM X) k i)
        (argsortRow (sqdistM X i)) :=
      (List.drop_sublist 1 _).trans (List.take_sublist k _)
    have h1 : (get_indices_of_k_nearest (sqdistM X) k i).Pairwise (rowOrder (sqdistM X i)) :=
      List.Pairwise.sublist hsub (sorted_argsortRow (sqdistM X i))
    unfold get_distances_of_k_nearest
    exact List.pairwise_map.mpr (h1.imp (fun h => rowOrder_imp_le _ h))

/- C2 counterexample: for the duplicate point pair (both points at the
origin) with `k = 2`, the neighbor list of point 1 — under the partial
selection's index-order tie-breaking that the claim itself stipulates — is
`[1]`, which contains the point's own index: the dropped position-0 element
is point 0, not the self-match. -/
unseal Rat.add Rat.sub Rat.mul Rat.inv in
theorem neighbor_search_self_counterexample :
    (1 : Fin 2) ∈ get_indices_of_k_nearest (sqdistM exampleXdup) 2 1 := by
  decide

unseal Rat.add Rat.sub Rat.mul Rat.inv in
theorem neighbor_search_spec_witness :
    (get_indices_of_k_nearest (sqdistM exampleXdistinct) 2 0).length = min (2 - 1) (2 - 1)
    ∧ (0 : Fin 2) ∉ get_indices_of_k_nearest (sqdistM exampleXdistinct) 2 0
    ∧ List.Sorted (· ≤ ·) (get_distances_of_k_nearest (sqdistM exampleXdistinct) 2 0) :=
  ⟨(neighbor_search_spec exampleXdistinct 2 0 (by decide) (by decide)).1,
   (neighbor_search_spec exampleXdistinct 2 0 (by decide) (by decide)).2.1,
   (neighbor_search_spec exampleXdistinct 2 0 (by decide) (by decide)).2.2.2⟩

/-- C3: whenever the requested neighbor count exceeds the dataset size, the
effective count becomes `1 + ⌊N/2⌋`; in particular `N = 4`, `k = 30` gives
effective `k = 3`. -/
theorem effective_k_clamp :
    (∀ n_neighbors n_obs : ℕ, n_neighbors > n_obs →
      compute_distances_effective_k n_neighbors n_obs = 1 + n_obs / 2)
    ∧ compute_distances_effective_k 30 4 = 3 := by
  constructor
  · intro k nobs h
    unfold compute_distances_effective_k
    rw [if_pos h]
  · rfl

theorem effective_k_clamp_witness :
    30 > 4 ∧ compute_distances_effective_k 30 4 = 1 + 4 / 2 :=
  ⟨by decide, effective_k_clamp.1 30 4 (by decide)⟩

theorem gaussW_symm {n : ℕ} (sq ex : ℚ → ℚ) (sigsq : Fin n → ℚ)
    (D : Fin n → Fin n → ℚ) (a b : Fin n) (hD : D a b = D b a) :
    gaussW sq ex sigsq D a b = gaussW sq ex sigsq D b a := by
  unfold gaussW
  rw [show 2 * sq (sigsq a) * sq (sigsq b) / (sigsq a + sigsq b)
      = 2 * sq (sigsq b) * sq (sigsq a) / (sigsq b + sigsq a) from by ring,
    show -D a b / (sigsq a + sigsq b) = -D b a / (sigsq b + sigsq a) from by
      rw [hD, add_comm (sigsq a) (sigsq b)]]

theorem denseWMasked_symm {n : ℕ} (sq ex : ℚ → ℚ) (Dsq : Fin n → Fin n → ℚ)
    (k : ℕ) (a b : Fin n) (hD : Dsq a b = Dsq b a) :
    denseWMasked sq ex Dsq k a b = denseWMasked sq ex Dsq k b a := by
  unfold denseWMasked
  rw [gaussW_symm sq ex (denseSigmaSq Dsq k) Dsq a b hD]

theorem npBroadcast_eq_self {α : Type} {k1 : ℕ} {l : List α}
    (h : l.length = k1) : npBroadcast k1 l = l := by
  cases l with
  | nil => rfl
  | cons x xs =>
    cases xs with
    | nil =>
      unfold npBroadcast
      rw [← h]
      rfl
    | cons y ys => rfl

theorem rowNonzero_eq_self {n : ℕ} (idx : Fin n → List (Fin n))
    (val : Fin n → Fin n → ℚ) (i : Fin n)
    (hnz : ∀ j ∈ idx i, val i j ≠ 0) : rowNonzero idx val i = idx i :=
  List.filter_eq_self.mpr (fun j hj => decide_eq_true (hnz j hj))

/-- For a well-formed knn graph — every stored distance nonzero, every row
of the stored degree `k-1` — the nonzero()-filtered, broadcast extraction
returns the stored neighbor lists unchanged. -/
theorem get_indices_from_sparse_eq {n : ℕ} (k : ℕ) (idx : Fin n → List (Fin n))
    (val : Fin n → Fin n → ℚ) (i : Fin n)
    (hnz : ∀ j ∈ idx i, val i j ≠ 0) (hlen : (idx i).length = k - 1) :
    get_indices_from_sparse k idx val i = idx i := by
  unfold get_indices_from_sparse
  rw [rowNonzero_eq_self idx val i hnz, npBroadcast_eq_self hlen]

theorem sparseW_symm {n : ℕ} (sq ex : ℚ → ℚ) (k : ℕ) (idx : Fin n → List (Fin n))
    (val : Fin n → Fin n → ℚ) (a b : Fin n) (hD : ∀ x y, val x y = val y x)
    (hnz : ∀ x, ∀ y ∈ idx x, val x y ≠ 0) (hlen : ∀ x, (idx x).length = k - 1) :
    sparseW sq ex k idx val a b = sparseW sq ex k idx val b a := by
  have he : ∀ x, get_indices_from_sparse k idx val x = idx x := fun x =>
    get_indices_from_sparse_eq k idx val x (hnz x) (hlen x)
  unfold sparseW
  rw [he a, he b]
  by_cases h1 : b ∈ idx a <;> by_cases h2 : a ∈ idx b <;> simp [h1, h2]
  exact gaussW_symm sq ex (sparseSigmaSq k idx val) val a b (hD a b)

theorem densityNormalize_symm {n : ℕ} (W : Fin n → Fin n → ℚ)
    (h : ∀ x y, W x y = W y x) (a b : Fin n) :
    densityNormalize W a b = densityNormalize W b a := by
  unfold densityNormalize
  rw [h a b, mul_comm]

theorem simNormalize_symm {n : ℕ} (sq : ℚ → ℚ) (K : Fin n → Fin n → ℚ)
    (h : ∀ x y, K x y = K y x) (a b : Fin n) :
    simNormalize sq K a b = simNormalize sq K b a := by
  unfold simNormalize
  rw [h a b, mul_comm]

/-- C1 amended: for any distance graph with symmetric entry values, the
dense non-knn path of `compute_similarities` produces an exactly symmetric
matrix; the sparse knn path does so provided the stored graph is
well-formed — every stored distance nonzero (no duplicate points) and
every row of degree `k-1` — since then the nonzero()-filtered lists that
drive the mirror loop coincide with the stored pattern.  In both paths the
symmetry survives the density normalization and the final
`sqrtz`-normalization. -/
theorem similarities_symmetric {n : ℕ} (sq ex : ℚ → ℚ) (k : ℕ)
    (idx : Fin n → List (Fin n)) (Dval : Fin n → Fin n → ℚ)
    (hD : ∀ a b, Dval a b = Dval b a)
    (hnz : ∀ x, ∀ y ∈ idx x, Dval x y ≠ 0)
    (hlen : ∀ x, (idx x).length = k - 1) :
    (∀ i j, compute_similarities_dense sq ex k Dval i j
      = compute_similarities_dense sq ex k Dval j i)
    ∧ (∀ i j, compute_similarities_sparse sq ex k idx Dval i j
      = compute_similarities_sparse sq ex k idx Dval j i) := by
  constructor
  · intro i j
    exact simNormalize_symm sq _
      (densityNormalize_symm _ (fun x y => denseWMasked_symm sq ex Dval k x y (hD x y))) i j
  · intro i j
    exact simNormalize_symm sq _
      (densityNormalize_symm _ (fun x y => sparseW_symm sq ex k idx Dval x y hD hnz hlen)) i j

unseal Rat.add Rat.sub Rat.mul Rat.inv in
theorem similarities_symmetric_witness :
    compute_similarities_dense id id 2 exampleD2 0 1
      = compute_similarities_dense id id 2 exampleD2 1 0
    ∧ compute_similarities_sparse id id 2 exampleIdx2 exampleD2 0 1
      = compute_similarities_sparse id id 2 exampleIdx2 exampleD2 1 0 :=
  ⟨(similarities_symmetric id id 2 exampleIdx2 exampleD2
      (by decide) (by decide) (by decide)).1 0 1,
   (similarities_symmetric id id 2 exampleIdx2 exampleD2
      (by decide) (by decide) (by decide)).2 0 1⟩

/- C1 counterexample: the claim as stated fails on the code.  For the point
set `0, 0, 1, 2` with `k = 3` (under the index-order tie-breaking of the
selection), the stored knn graph holds the zero-distance edge `(0,1)`,
which `nonzero()` drops from the extracted neighbor lists: the kernel loop
assigns `W[0,1] = sqrt(2σ₀σ₁/(σ₀²+σ₁²))·exp(0) > 0` on the stored entry,
but the mirror loop never enumerates `(0,1)` and never writes `W[1,0]`, so
the similarities come out asymmetric at `(0,1)`.  Instantiated at `sq` and
`ex` constantly 1 — the values the true `np.sqrt` and `np.exp` take at the
arguments reached on this entry (`sqrt 1 = 1`, `exp 0 = 1`). -/
unseal Rat.add Rat.sub Rat.mul Rat.inv in
theorem similarities_symmetric_counterexample :
    compute_similarities_sparse (fun _ => 1) (fun _ => 1) 3
        (get_indices_of_k_nearest (sqdistM exampleX4dup) 3) (sqdistM exampleX4dup) 0 1
      ≠ compute_similarities_sparse (fun _ => 1) (fun _ => 1) 3
        (get_indices_of_k_nearest (sqdistM exampleX4dup) 3) (sqdistM exampleX4dup) 1 0 := by
  decide

/-- C10: `compute_similarities` never modifies the stored distance graph —
on every path, raising or succeeding, the `distances` attribute of the
resulting state is the one the call started from (the sparse path works on
`W = Dsq.copy()` and the dense path builds fresh arrays). -/
theorem compute_similarities_preserves_distances {n : ℕ} (sq ex : ℚ → ℚ)
    (k : ℕ) (s : NeighborsState n) :
    ((compute_similarities_state sq ex k s).2).distances = s.distances := by
  obtain ⟨d, sims, ev, knn, fl, rb⟩ := s
  cases d with
  | none => rfl
  | some dmat =>
    cases dmat <;> cases knn <;> by_cases hf : fl = Flavor.unweighted <;>
      simp [compute_similarities_state, hf]

/-- C7: every usage-order violation raises immediately and leaves the
previously computed attributes untouched: `compute_similarities` with no
distance graph; `flavor='unweighted'` with knn mode off; `compute_eigen`
with no similarities and no explicit matrix (only the unrelated
`rbasisBool` flag, already assigned before the check, differs there). -/
theorem usage_order_errors {n : ℕ} :
    (∀ (sq ex : ℚ → ℚ) (k : ℕ) (s : NeighborsState n), s.distances = none →
      compute_similarities_state sq ex k s
        = (some "You need to run `.compute_distances` first.", s))
    ∧ (∀ (sq ex : ℚ → ℚ) (k : ℕ) (s : NeighborsState n) (D : Fin n → Fin n → ℚ),
        s.flavor = Flavor.unweighted → s.knn = false →
        s.distances = some (StoredMat.dense D) →
        compute_similarities_state sq ex k s
          = (some "flavor=unweighted only with knn=True.", s))
    ∧ (∀ (full : StoredMat n → List ℚ) (es : StoredMat n → Bool → ℕ → List ℚ)
        (n_comps : ℕ) (decrease : Bool) (s : NeighborsState n),
        s.similarities = none →
        (compute_eigen_state full es n_comps decrease none s).1
          = some "Run `.compute_similarities` first."
        ∧ (compute_eigen_state full es n_comps decrease none s).2.distances = s.distances
        ∧ (compute_eigen_state full es n_comps decrease none s).2.similarities
          = s.similarities
        ∧ (compute_eigen_state full es n_comps decrease none s).2.evals = s.evals) := by
  refine ⟨?_, ?_, ?_⟩
  · intro sq ex k s h
    unfold compute_similarities_state
    rw [h]
  · intro sq ex k s D hfl hknn hd
    unfold compute_similarities_state
    rw [hd, hknn, hfl]
    simp
  · intro full es n_comps decrease s hsim
    unfold compute_eigen_state
    rw [hsim]
    exact ⟨rfl, rfl, rfl, rfl⟩

theorem usage_order_errors_witness :
    (compute_similarities_state id id 1
        (⟨none, none, none, true, Flavor.haghverdi16, false⟩ : NeighborsState 1)
      = (some "You need to run `.compute_distances` first.",
        ⟨none, none, none, true, Flavor.haghverdi16, false⟩))
    ∧ (compute_similarities_state id id 1
        (⟨some (StoredMat.dense (fun _ _ => 0)), none, none, false,
          Flavor.unweighted, false⟩ : NeighborsState 1)
      = (some "flavor=unweighted only with knn=True.",
        ⟨some (StoredMat.dense (fun _ _ => 0)), none, none, false,
          Flavor.unweighted, false⟩))
    ∧ (compute_eigen_state (fun _ => []) (fun _ _ _ => []) 0 true none
        (⟨none, none, none, true, Flavor.haghverdi16, false⟩ : NeighborsState 1)).1
      = some "Run `.compute_similarities` first." :=
  ⟨usage_order_errors.1 id id 1 _ rfl,
   usage_order_errors.2.1 id id 1 _ (fun _ _ => 0) rfl rfl rfl,
   ((usage_order_errors.2.2 (fun _ => []) (fun _ _ _ => []) 0 true _ rfl)).1⟩

theorem findRow_cons (g : ℕ) (p : ℕ × List ℚ) (ps : List (ℕ × List ℚ)) :
    findRow g (p :: ps) = if p.1 = g then some p.2 else findRow g ps := rfl

theorem fetchRow_val {M : OnFlySymMatrix} (hM : cacheGood M) (g : ℕ) :
    (M.fetchRow g).1 = M.get_row g := by
  unfold OnFlySymMatrix.fetchRow
  split
  next r hr => exact hM g r hr
  next hr => rfl

theorem fetchRow_cacheGood {M : OnFlySymMatrix} (hM : cacheGood M) (g : ℕ) :
    cacheGood (M.fetchRow g).2.1 := by
  unfold OnFlySymMatrix.fetchRow
  split
  next r hr => exact hM
  next hr =>
    intro h v hv
    rw [findRow_cons] at hv
    by_cases hgh : g = h
    · rw [if_pos hgh] at hv
      injection hv with hv
      subst hgh
      exact hv.symm
    · rw [if_neg hgh] at hv
      exact hM h v hv

theorem fetchRow_get_row (M : OnFlySymMatrix) (g : ℕ) :
    (M.fetchRow g).2.1.get_row = M.get_row := by
  unfold OnFlySymMatrix.fetchRow
  split <;> rfl

theorem fetchRow_ra (M : OnFlySymMatrix) (g : ℕ) :
    (M.fetchRow g).2.1.restrict_array = M.restrict_array := by
  unfold OnFlySymMatrix.fetchRow
  split <;> rfl

theorem fetchRow_mono (M : OnFlySymMatrix) (g h : ℕ) (hc : isCached M h = true) :
    isCached (M.fetchRow g).2.1 h = true := by
  unfold OnFlySymMatrix.fetchRow
  split
  next r hr => exact hc
  next hr =>
    unfold isCached at hc ⊢
    rw [findRow_cons]
    by_cases hgh : g = h
    · rw [if_pos hgh]
      rfl
    · rw [if_neg hgh]
      exact hc

theorem fetchRow_log_fresh (M : OnFlySymMatrix) (g h : ℕ)
    (hmem : h ∈ (M.fetchRow g).2.2) : isCached M h = false := by
  unfold OnFlySymMatrix.fetchRow at hmem
  split at hmem
  next r hr => exact absurd hmem (List.not_mem_nil h)
  next hr =>
    rcases List.mem_singleton.mp hmem with rfl
    unfold isCached
    rw [hr]
    rfl

theorem isCached_false_iff (M : OnFlySymMatrix) (g : ℕ) :
    isCached M g = false ↔ findRow g M.rows = none := by
  unfold isCached
  cases findRow g M.rows <;> simp

theorem fetchRow_log_of_cached (M : OnFlySymMatrix) (g : ℕ)
    (hc : isCached M g = true) : (M.fetchRow g).2.2 = [] := by
  obtain ⟨r, hr⟩ := Option.isSome_iff_exists.mp (by simpa [isCached] using hc)
  unfold OnFlySymMatrix.fetchRow
  rw [hr]

theorem fetchRow_log_cached (M : OnFlySymMatrix) (g h : ℕ)
    (hmem : h ∈ (M.fetchRow g).2.2) : isCached (M.fetchRow g).2.1 h = true := by
  cases hb : isCached M g with
  | true =>
    rw [fetchRow_log_of_cached M g hb] at hmem
    exact absurd hmem (List.not_mem_nil h)
  | false =>
    have hnone := (isCached_false_iff M g).mp hb
    unfold OnFlySymMatrix.fetchRow at hmem ⊢
    rw [hnone] at hmem ⊢
    rcases List.mem_singleton.mp hmem with rfl
    simp [isCached, findRow]

theorem fetchRow_log_nodup (M : OnFlySymMatrix) (g : ℕ) :
    (M.fetchRow g).2.2.Nodup := by
  unfold OnFlySymMatrix.fetchRow
  split
  next r hr => exact List.nodup_nil
  next hr => exact List.nodup_singleton g

theorem handleRequest_val {M : OnFlySymMatrix} (hM : cacheGood M) (r : MatRequest) :
    (handleRequest M r).1 = expectedResponse M.get_row M.restrict_array r := by
  cases r with
  | single i =>
    unfold handleRequest OnFlySymMatrix.getItemSingle
    cases hra : M.restrict_array with
    | none => simp [expectedResponse, hra, fetchRow_val hM, traIdx]
    | some l => simp [expectedResponse, hra, fetchRow_val hM, traIdx]
  | pair i j =>
    show MatResponse.val
        ((M.fetchRow (traIdx M.restrict_array i)).1.getD (traIdx M.restrict_array j) 0)
      = MatResponse.val
        ((M.get_row (traIdx M.restrict_array i)).getD (traIdx M.restrict_array j) 0)
    rw [fetchRow_val hM]

theorem handleRequest_state (M : OnFlySymMatrix) (r : MatRequest) :
    (handleRequest M r).2.1 = (M.fetchRow (match r with
      | .single i => traIdx M.restrict_array i
      | .pair i _ => traIdx M.restrict_array i)).2.1 := by
  cases r with
  | single i =>
    unfold handleRequest OnFlySymMatrix.getItemSingle
    cases hra : M.restrict_array <;> simp [hra]
  | pair i j => rfl

theorem handleRequest_log (M : OnFlySymMatrix) (r : MatRequest) :
    (handleRequest M r).2.2 = (M.fetchRow (match r with
      | .single i => traIdx M.restrict_array i
      | .pair i _ => traIdx M.restrict_array i)).2.2 := by
  cases r with
  | single i =>
    unfold handleRequest OnFlySymMatrix.getItemSingle
    cases hra : M.restrict_array <;> simp [hra]
  | pair i j => rfl

theorem processRequests_spec (reqs : List MatRequest) :
    ∀ (M : OnFlySymMatrix), cacheGood M →
    List.Forall₂ (fun r o => o = expectedResponse M.get_row M.restrict_array r)
      reqs (processRequests M reqs).1
    ∧ cacheGood (processRequests M reqs).2.1
    ∧ (processRequests M reqs).2.1.get_row = M.get_row
    ∧ (processRequests M reqs).2.1.restrict_array = M.restrict_array
    ∧ (processRequests M reqs).2.2.Nodup
    ∧ (∀ g, g ∈ (processRequests M reqs).2.2 → isCached M g = false)
    ∧ (∀ g, isCached M g = true → isCached (processRequests M reqs).2.1 g = true) := by
  induction reqs with
  | nil =>
    intro M hM
    exact ⟨List.Forall₂.nil, hM, rfl, rfl, List.nodup_nil,
      fun g hg => absurd hg (List.not_mem_nil g), fun g hg => hg⟩
  | cons r rs ih =>
    intro M hM
    have hstate := handleRequest_state M r
    have hlog := handleRequest_log M r
    have hcg : cacheGood (handleRequest M r).2.1 := by
      rw [hstate]; exact fetchRow_cacheGood hM _
    have hgr : (handleRequest M r).2.1.get_row = M.get_row := by
      rw [hstate]; exact fetchRow_get_row M _
    have hra : (handleRequest M r).2.1.restrict_array = M.restrict_array := by
      rw [hstate]; exact fetchRow_ra M _
    have hmono : ∀ g, isCached M g = true → isCached (handleRequest M r).2.1 g = true := by
      intro g hg; rw [hstate]; exact fetchRow_mono M _ g hg
    have hfresh : ∀ g, g ∈ (handleRequest M r).2.2 → isCached M g = false := by
      intro g hg; rw [hlog] at hg; exact fetchRow_log_fresh M _ g hg
    have hcached : ∀ g, g ∈ (handleRequest M r).2.2 →
        isCached (handleRequest M r).2.1 g = true := by
      intro g hg
      rw [hlog] at hg
      rw [hstate]
      exact fetchRow_log_cached M _ g hg
    have hnd : (handleRequest M r).2.2.Nodup := by
      rw [hlog]; exact fetchRow_log_nodup M _
    obtain ⟨ihF, ihCG, ihGR, ihRA, ihND, ihFresh, ihMono⟩ :=
      ih (handleRequest M r).2.1 hcg
    refine ⟨?_, ihCG, ihGR.trans hgr, ihRA.trans hra, ?_, ?_, ?_⟩
    · refine List.Forall₂.cons (handleRequest_val hM r) ?_
      rw [← hgr, ← hra]
      exact ihF
    · refine List.Nodup.append hnd ihND ?_
      intro g hg1 hg2
      have h1 := hcached g hg1
      have h2 := ihFresh g hg2
      rw [h1] at h2
      exact Bool.noConfusion h2
    · intro g hg
      rcases List.mem_append.mp hg with hg1 | hg2
      · exact hfresh g hg1
      · cases hMg : isCached M g with
        | false => rfl
        | true =>
          have h2 := ihFresh g hg2
          rw [hmono g hMg] at h2
          exact Bool.noConfusion h2
    · intro g hg
      exact ihMono g (hmono g hg)

/-- C5: against a freshly constructed view (empty cache), any sequence of
single-index or pairwise lookups invokes the row generator at most once per
distinct global row index, and every lookup (first or subsequent) returns
exactly the value determined by the fixed generator — i.e. the cached
row. -/
theorem lazy_cache_at_most_once (gen : ℕ → List ℚ) (sh : ℕ × ℕ) (ds de : ℤ)
    (ra : Option (List ℕ)) (reqs : List MatRequest) :
    List.Forall₂ (fun r o => o = expectedResponse gen ra r) reqs
      (processRequests ⟨gen, sh, ds, de, [], ra⟩ reqs).1
    ∧ ∀ g, ((processRequests ⟨gen, sh, ds, de, [], ra⟩ reqs).2.2).count g ≤ 1 := by
  have hM : cacheGood ⟨gen, sh, ds, de, [], ra⟩ := by
    intro g r h
    exact absurd h (by simp [findRow])
  obtain ⟨hF, _, _, _, hND, _, _⟩ := processRequests_spec reqs ⟨gen, sh, ds, de, [], ra⟩ hM
  exact ⟨hF, List.nodup_iff_count_le_one.mp hND⟩

theorem fetchRow_val_congr (M1 M2 : OnFlySymMatrix) (hrows : M1.rows = M2.rows)
    (hgr : M1.get_row = M2.get_row) (g : ℕ) :
    (M1.fetchRow g).1 = (M2.fetchRow g).1 := by
  unfold OnFlySymMatrix.fetchRow
  rw [hrows, hgr]
  cases findRow g M2.rows <;> rfl

theorem fetchRow_log_congr (M1 M2 : OnFlySymMatrix) (hrows : M1.rows = M2.rows)
    (g : ℕ) : (M1.fetchRow g).2.2 = (M2.fetchRow g).2.2 := by
  unfold OnFlySymMatrix.fetchRow
  rw [hrows]
  cases findRow g M2.rows <;> rfl

/-- C6: a restricted view shares the cache of the full view verbatim;
pairwise lookups through the restriction agree with the full view's lookups
at the translated global indices; and a restricted lookup of an
already-cached row performs no generator call. -/
theorem restrict_spec (gen : ℕ → List ℚ) (sh : ℕ × ℕ) (ds de : ℤ)
    (rows : List (ℕ × List ℚ)) (sub : List ℕ) (a b : ℕ)
    (_ha : a < sub.length) (_hb : b < sub.length) :
    ((OnFlySymMatrix.restrict ⟨gen, sh, ds, de, rows, none⟩ sub).getItemPair a b).1
      = (OnFlySymMatrix.getItemPair ⟨gen, sh, ds, de, rows, none⟩
          (sub.getD a 0) (sub.getD b 0)).1
    ∧ (OnFlySymMatrix.restrict ⟨gen, sh, ds, de, rows, none⟩ sub).rows
      = (⟨gen, sh, ds, de, rows, none⟩ : OnFlySymMatrix).rows
    ∧ (isCached ⟨gen, sh, ds, de, rows, none⟩ (sub.getD a 0) = true →
      ((OnFlySymMatrix.restrict ⟨gen, sh, ds, de, rows, none⟩ sub).getItemPair a b).2.2 = []) := by
  refine ⟨?_, rfl, ?_⟩
  · show ((OnFlySymMatrix.restrict ⟨gen, sh, ds, de, rows, none⟩ sub).fetchRow
        (sub.getD a 0)).1.getD (sub.getD b 0) 0
      = ((⟨gen, sh, ds, de, rows, none⟩ : OnFlySymMatrix).fetchRow
        (sub.getD a 0)).1.getD (sub.getD b 0) 0
    rw [fetchRow_val_congr (OnFlySymMatrix.restrict ⟨gen, sh, ds, de, rows, none⟩ sub)
      ⟨gen, sh, ds, de, rows, none⟩ rfl rfl]
  · intro hc
    show ((OnFlySymMatrix.restrict ⟨gen, sh, ds, de, rows, none⟩ sub).fetchRow
        (sub.getD a 0)).2.2 = []
    rw [fetchRow_log_congr (OnFlySymMatrix.restrict ⟨gen, sh, ds, de, rows, none⟩ sub)
      ⟨gen, sh, ds, de, rows, none⟩ rfl (sub.getD a 0)]
    exact fetchRow_log_of_cached _ _ hc

theorem restrict_spec_witness :
    0 < ([1, 0] : List ℕ).length
    ∧ ((OnFlySymMatrix.restrict ⟨fun g => [(g : ℚ)], (2, 2), 0, -1, [], none⟩ [1, 0]).getItemPair 0 1).1
      = (OnFlySymMatrix.getItemPair ⟨fun g => [(g : ℚ)], (2, 2), 0, -1, [], none⟩
          (([1, 0] : List ℕ).getD 0 0) (([1, 0] : List ℕ).getD 1 0)).1 :=
  ⟨by decide,
   (restrict_spec (fun g => [(g : ℚ)]) (2, 2) 0 (-1) [] [1, 0] 0 1
      (by decide) (by decide)).1⟩

theorem length_get_indices {n : ℕ} (Dsq : Fin n → Fin n → ℚ) (k : ℕ) (i : Fin n) :
    (get_indices_of_k_nearest Dsq k i).length = min k n - 1 := by
  unfold get_indices_of_k_nearest
  rw [List.length_drop, List.length_take, length_argsortRow]

/-- C8 amended: a knn graph persisted under the distances slot alone, with
all of the first row's stored distances nonzero (point 0 has no duplicate
among its neighbors), reconstructs `knn = True` and the original effective
neighbor count `k` on load. -/
theorem persisted_roundtrip {n dd : ℕ} (X : Fin n → Fin dd → ℚ) (k : ℕ)
    (hn : 0 < n) (hk1 : 1 ≤ k) (hk : k ≤ n)
    (hrow0 : ∀ j ∈ get_indices_of_k_nearest (sqdistM X) k ⟨0, hn⟩,
      sqdistM X ⟨0, hn⟩ j ≠ 0) :
    neighbors_init_info
      (⟨some (.sparse (get_indices_of_k_nearest (sqdistM X) k) (sqdistM X)),
        none⟩ : UnsSlots n)
      = { knn := some true, n_neighbors := some k } := by
  have hcount : firstRowNonzeroCount
      (StoredMat.sparse (get_indices_of_k_nearest (sqdistM X) k) (sqdistM X) : StoredMat n)
      = k - 1 := by
    unfold firstRowNonzeroCount
    rw [dif_pos hn]
    have hall : ∀ j ∈ get_indices_of_k_nearest (sqdistM X) k ⟨0, hn⟩,
        decide (sqdistM X ⟨0, hn⟩ j ≠ 0) = true :=
      fun j hj => decide_eq_true (hrow0 j hj)
    dsimp only
    rw [List.countP_eq_length.mpr hall, length_get_indices]
    omega
  unfold neighbors_init_info
  simp only [StoredMat.isSparse, if_pos, hcount]
  have hkk : k - 1 + 1 = k := by omega
  rw [hkk]

unseal Rat.add Rat.sub Rat.mul Rat.inv in
theorem persisted_roundtrip_witness :
    neighbors_init_info
      (⟨some (.sparse (get_indices_of_k_nearest (sqdistM exampleXdistinct) 2)
          (sqdistM exampleXdistinct)),
        none⟩ : UnsSlots 2)
      = { knn := some true, n_neighbors := some 2 } :=
  persisted_roundtrip exampleXdistinct 2 (by decide) (by decide) (by decide) (by decide)

/- C8 counterexample: the reconstruction does not always recover the
neighbor count.  First instance: the duplicate pair persisted with `k = 2`
under the distances slot stores a zero distance in row 0, so the nonzero
count gives `n_neighbors = 1 ≠ 2`.  Second instance: three points whose knn
graph has an asymmetric edge into point 0; when the (symmetrized)
similarities slot is persisted as well, its first row has an extra mirrored
entry and reconstruction gives `n_neighbors = 3 ≠ 2`. -/
unseal Rat.add Rat.sub Rat.mul Rat.inv in
theorem persisted_roundtrip_counterexample :
    ((neighbors_init_info
      (⟨some (.sparse (get_indices_of_k_nearest (sqdistM exampleXdup) 2)
          (sqdistM exampleXdup)),
        none⟩ : UnsSlots 2)).n_neighbors = some 1
      ∧ (some 1 : Option ℕ) ≠ some 2)
    ∧ ((neighbors_init_info
      (⟨some (.sparse (get_indices_of_k_nearest (sqdistM exampleX3) 2)
          (sqdistM exampleX3)),
        some (.sparse (symPattern 2 (get_indices_of_k_nearest (sqdistM exampleX3) 2)
            (sqdistM exampleX3))
          (compute_similarities_sparse (fun _ => 1) (fun _ => 1) 2
            (get_indices_of_k_nearest (sqdistM exampleX3) 2)
            (sqdistM exampleX3)))⟩ : UnsSlots 3)).n_neighbors = some 3
      ∧ (some 3 : Option ℕ) ≠ some 2) := by
  exact ⟨⟨by decide, by decide⟩, ⟨by decide, by decide⟩⟩

/-- C9: with a set root and (symmetric mode) equal left/right bases, the
pseudotime vector is the diffusion-distance row at the root divided by its
own maximum; when that maximum is positive every entry lies in `[0, 1]` and
the root's entry is `0` (for any `sq` modelling `np.sqrt`, i.e. vanishing
at `0` and nonnegative on nonnegatives). -/
theorem pseudotime_spec {n : ℕ} (sq : ℚ → ℚ) (evals : List ℚ)
    (rbasis : Fin n → ℕ → ℚ) (iroot : Fin n)
    (h0 : sq 0 = 0) (hnn : ∀ x, 0 ≤ x → 0 ≤ sq x)
    (hmax : 0 < rowMaxQ (get_Ddiff_row sq evals rbasis rbasis iroot) iroot) :
    (∀ j, pseudotimeOf sq evals rbasis rbasis iroot j
        = get_Ddiff_row sq evals rbasis rbasis iroot j
          / rowMaxQ (get_Ddiff_row sq evals rbasis rbasis iroot) iroot)
    ∧ (∀ j, 0 ≤ pseudotimeOf sq evals rbasis rbasis iroot j
        ∧ pseudotimeOf sq evals rbasis rbasis iroot j ≤ 1)
    ∧ pseudotimeOf sq evals rbasis rbasis iroot iroot = 0 := by
  have hrow_nonneg : ∀ j, 0 ≤ get_Ddiff_row sq evals rbasis rbasis iroot j := by
    intro j
    unfold get_Ddiff_row
    apply hnn
    apply add_nonneg
    · apply List.sum_nonneg
      intro x hx
      rcases List.mem_map.mp hx with ⟨l, _, rfl⟩
      exact sq_nonneg _
    · apply List.sum_nonneg
      intro x hx
      rcases List.mem_map.mp hx with ⟨l, _, rfl⟩
      exact sq_nonneg _
  refine ⟨fun j => rfl, ?_, ?_⟩
  · intro j
    constructor
    · exact div_nonneg (hrow_nonneg j) (le_of_lt hmax)
    · unfold pseudotimeOf
      rw [div_le_one hmax]
      unfold rowMaxQ
      exact Finset.le_sup' _ (Finset.mem_univ j)
  · unfold pseudotimeOf
    have hzero : get_Ddiff_row sq evals rbasis rbasis iroot iroot = 0 := by
      unfold get_Ddiff_row
      have hs1 : (((List.range evals.length).filter
          (fun l => decide (evals.getD l 0 < evalCutoff))).map
            (fun l => (evals.getD l 0 / (1 - evals.getD l 0)
              * (rbasis iroot l - rbasis iroot l)) ^ 2)).sum = 0 := by
        apply List.sum_eq_zero
        intro x hx
        rcases List.mem_map.mp hx with ⟨l, _, rfl⟩
        rw [sub_self, mul_zero]
        ring
      have hs2 : (((List.range evals.length).filter
          (fun l => decide (¬ evals.getD l 0 < evalCutoff))).map
            (fun l => (rbasis iroot l - rbasis iroot l) ^ 2)).sum = 0 := by
        apply List.sum_eq_zero
        intro x hx
        rcases List.mem_map.mp hx with ⟨l, _, rfl⟩
        rw [sub_self]
        ring
      rw [hs1, hs2, add_zero, h0]
    rw [hzero, zero_div]

unseal Rat.add Rat.sub Rat.mul Rat.inv in
theorem pseudotime_spec_witness :
    pseudotimeOf id [1 / 2] exampleRb exampleRb 0 0 = 0
    ∧ 0 ≤ pseudotimeOf id [1 / 2] exampleRb exampleRb 0 1
    ∧ pseudotimeOf id [1 / 2] exampleRb exampleRb 0 1 ≤ 1 := by
  have h := pseudotime_spec id [1 / 2] exampleRb 0 rfl (fun x hx => hx)
    (lt_of_lt_of_le (by decide)
      (Finset.le_sup' (get_Ddiff_row id [1 / 2] exampleRb exampleRb 0) (Finset.mem_univ 1)))
  exact ⟨h.2.2, (h.2.1 1).1, (h.2.1 1).2⟩

end Scanpy
